import Mathlib

/-!
# Verification of the streamdeck pedal action layer

Shallow embedding of `src/modifier/__main__.py`: the action registry and its
dispatch callback, the `Switcher` / `SimpleAdaptiveSwitcher` cycle machinery,
the recency-tracking update loop, the `Modifier` script compilation and
exit-hook behaviour, and the `app_path` normalization function.

Strings that the Python code manipulates character-by-character are embedded
as `List Char`; external collaborators (the `expanduser` call, the
`osacompile` tool, the OS focus state, the `atexit` mechanism) are oracle
parameters or explicit world state.

The file is organised as definitions first, then the theorems about them.
-/

namespace StreamdeckModifier

/-! ## Definitions

### `app_path` normalization (`__main__.py` lines 169-179)

`app_path` resolves a name to an absolute path and space-escapes it:
the helper keeps paths starting with `/`, expands a leading `~` via
`Path.expanduser` (modelled by the oracle `expand`), and otherwise prefixes
`/Applications/`; the result then has every backslash removed
(`.replace("\\", "")`) and every space replaced by backslash-space
(`.replace(" ", r"\ ")`). -/

/-- Python `str.replace("\\", "")`: drop every backslash character. -/
def stripBackslashes (l : List Char) : List Char :=
  l.filter (fun c => c ≠ '\\')

/-- Python `str.replace(" ", r"\ ")`: insert a backslash before every space. -/
def escapeSpaces : List Char → List Char
  | [] => []
  | c :: cs => if c = ' ' then '\\' :: ' ' :: escapeSpaces cs else c :: escapeSpaces cs

/-- The combined `.replace("\\", "").replace(" ", r"\ ")` applied to the
helper's result. -/
def escapePath (l : List Char) : List Char :=
  escapeSpaces (stripBackslashes l)

/-- Embedding of `app_path` from the source, over characters. `expand` is the external
`Path.expanduser` call used for paths starting with `~`. -/
def app_path (expand : List Char → List Char) (path : List Char) : List Char :=
  escapePath
    (if path.head? = some '/' then path
     else if path.head? = some '~' then expand path
     else "/Applications/".data ++ path)

/-- Embedding of `get_active_app_path` (lines 182-188): the OS reports the active
application's path (`reported`, via `NSWorkspace`) and the function applies
`app_path` to it. -/
def get_active_app_path (expand : List Char → List Char) (reported : List Char) : List Char :=
  app_path expand reported

/-! ### `Switcher` (lines 76-98)

`Switcher` holds `self._app_paths` (the resolved configured list) and the
iterator `self._app_cycle = itertools.cycle(self._app_paths)`. The cycle
iterator is embedded as a cursor `pos : Nat`; `next` on `cycle(paths)`
returns `paths[pos % len(paths)]` and advances the cursor, and raises
`StopIteration` (embedded as `none`) when `paths` is empty. -/

/-- One `next(self._app_cycle)` for a plain `Switcher`. -/
def switcherStep (paths : List String) (pos : Nat) : Option (String × Nat) :=
  match paths with
  | [] => none
  | _ :: _ => some (paths.getD (pos % paths.length) "", pos + 1)

/-- Embedding of `Switcher.__next__` (lines 90-94) generically over the underlying cycle
`step`: take the next element; if it equals the currently focused app path
(`get_active_app_path`, read once at call time), take one more element and
return it unconditionally. `none` propagates an exception from the cycle. -/
def nextPress {σ : Type} (step : σ → Option (String × σ)) (focused : String) (s : σ) :
    Option (String × σ) :=
  match step s with
  | none => none
  | some (v, s') => if v = focused then step s' else some (v, s')

/-- Embedding of `Switcher.__next__` for a plain `Switcher` (whose `_cycle` is
`itertools.cycle`). -/
def switcherNext (paths : List String) (focused : String) (pos : Nat) :
    Option (String × Nat) :=
  nextPress (switcherStep paths) focused pos

/-- Embedding of `Switcher.__call__` (lines 96-98): on press run `open <next(self)>`,
returning the list of launch calls issued and the new cursor; `none` when
`__next__` raises (then no launch call happens). Release does nothing. -/
def switcherCall (paths : List String) (focused : String) (is_depressed : Bool) (pos : Nat) :
    Option (List String × Nat) :=
  if is_depressed then
    match switcherNext paths focused pos with
    | none => none
    | some (v, pos') => some ([v], pos')
  else some ([], pos)

/-- Embedding of `Switcher.__post_init__` (lines 82-88): stores the resolved paths and a
fresh cycle; no validation whatsoever, so construction succeeds for every
list including the empty one. -/
def switcherInit (paths : List String) : List String × Nat :=
  (paths, 0)

/-- Run `n` consecutive presses of a `Switcher`, threading the cursor;
`focus k` is the focused app path read at press `k`. -/
def switcherRun (paths : List String) (focus : Nat → String) :
    Nat → Nat → Nat → Option (List String × Nat)
  | _, 0, pos => some ([], pos)
  | k, n + 1, pos =>
    match switcherNext paths (focus k) pos with
    | none => none
    | some (v, pos') =>
      match switcherRun paths focus (k + 1) n pos' with
      | none => none
      | some (out, posEnd) => some (v :: out, posEnd)

/-! ### `SimpleAdaptiveSwitcher._cycle` (lines 116-119)

```python
def _cycle(self):
    while True:
        yield from self._app_paths
        yield from list(self._recent)
```

The generator is embedded as a state machine. Its state is
`(phase, pending)`: `pending` is the tail of the sub-list currently being
yielded, and `phase` is `false` while inside the fixed (`_app_paths`)
portion and `true` while inside the recent-snapshot portion. The snapshot
`list(self._recent)` is evaluated at the `next()` call that resumes the
generator after the fixed portion is exhausted, so each step takes the
*current* recency window as a parameter. A fresh generator starts in state
`(true, [])`: the first resume enters the loop at `yield from
self._app_paths`, exactly like the wrap-around resume. If both lists are
empty the generator loops forever inside `next()`, embedded as `none`. -/

/-- One `next()` of the `SimpleAdaptiveSwitcher._cycle` generator, taking
the current value `recent` of `self._recent`. -/
def adaptStep (fixed recent : List String) :
    Bool × List String → Option (String × (Bool × List String))
  | (phase, x :: rest) => some (x, (phase, rest))
  | (false, []) =>
    match recent with
    | y :: rest => some (y, (true, rest))
    | [] =>
      match fixed with
      | z :: rest => some (z, (false, rest))
      | [] => none
  | (true, []) =>
    match fixed with
    | z :: rest => some (z, (false, rest))
    | [] =>
      match recent with
      | y :: rest => some (y, (true, rest))
      | [] => none

/-- Embedding of `__next__` as inherited by `SimpleAdaptiveSwitcher`: the skip logic of
lines 90-94 over the adaptive generator (the focused app is read once per
press, and both `next()` calls of one press see the same recency window). -/
def adaptPress (fixed recent : List String) (focused : String) (s : Bool × List String) :
    Option (String × (Bool × List String)) :=
  nextPress (adaptStep fixed recent) focused s

/-- Consume `n` elements of the adaptive cycle starting at press index `k`;
`sched k` is the value of `self._recent` at press `k` (the background
tracker may change it between presses). Returns the yielded elements and
the final generator state. -/
def adaptConsume (fixed : List String) (sched : Nat → List String) :
    Nat → Nat → Bool × List String → Option (List String × (Bool × List String))
  | _, 0, s => some ([], s)
  | k, n + 1, s =>
    match adaptStep fixed (sched k) s with
    | none => none
    | some (v, s') =>
      match adaptConsume fixed sched (k + 1) n s' with
      | none => none
      | some (out, sEnd) => some (v :: out, sEnd)

/-- Modelled from the claim's words (C3), for comparison with `adaptStep`:
a cycle whose pending traversal is refilled, at the press that *starts* a
traversal, with the fixed list concatenated with the recency history read
at that same press. The state is the pending rest of the current
traversal. -/
def claimCycleStep (fixed recent : List String) :
    List String → Option (String × List String)
  | x :: rest => some (x, rest)
  | [] =>
    match fixed ++ recent with
    | y :: rest => some (y, rest)
    | [] => none

/-- Consume `n` elements of the claim's version of the cycle (C3), with the
same press-indexed recency schedule as `adaptConsume`. -/
def claimConsume (fixed : List String) (sched : Nat → List String) :
    Nat → Nat → List String → Option (List String × List String)
  | _, 0, s => some ([], s)
  | k, n + 1, s =>
    match claimCycleStep fixed (sched k) s with
    | none => none
    | some (v, s') =>
      match claimConsume fixed sched (k + 1) n s' with
      | none => none
      | some (out, sEnd) => some (v :: out, sEnd)

/-- Launches of `n` presses of a `SimpleAdaptiveSwitcher` with a constant recency window
and with the focus following the launches (the OS launch call brings the
launched app to the foreground): each press launches `adaptPress` of the
previous press's launched app. Returns the launch sequence. -/
def adaptLaunchRun (fixed recent : List String) :
    String → Nat → Bool × List String → Option (List String)
  | _, 0, _ => some []
  | focused, n + 1, s =>
    match adaptPress fixed recent focused s with
    | none => none
    | some (v, s') =>
      match adaptLaunchRun fixed recent v n s' with
      | none => none
      | some out => some (v :: out)

/-! ### Registry dispatch (`Action`, lines 28-57)

`Action._registry` is a `dict[int, ActionHandler]`; `streamdeck_callback`
looks the pedal index up and silently returns when it is absent. Actions
are opaque handlers over an abstract world `σ`; a handler may raise
(`none`). -/

/-- Embedding of `Action.streamdeck_callback` (lines 47-51): dispatch one edge event.
An unregistered index is a silent no-op; a registered action runs
synchronously on the world. -/
def streamdeck_callback {σ : Type} (registry : Nat → Option (Bool → σ → Option σ))
    (pedal_idx : Nat) (is_depressed : Bool) (w : σ) : Option σ :=
  match registry pedal_idx with
  | none => some w
  | some action => action is_depressed w

/-- Deliver a sequence of `(pedal_idx, is_depressed)` edge events through
`streamdeck_callback`. -/
def dispatchRun {σ : Type} (registry : Nat → Option (Bool → σ → Option σ)) :
    List (Nat × Bool) → σ → Option σ
  | [], w => some w
  | e :: rest, w =>
    match streamdeck_callback registry e.1 e.2 w with
    | none => none
    | some w' => dispatchRun registry rest w'

/-- Embedding of `Action._registry` as ordered key/value pairs (Python dicts preserve
insertion order); lookup takes the first pair with the matching index. -/
def dictGet {α : Type} (i : Nat) : List (Nat × α) → Option α
  | [] => none
  | (k, v) :: rest => if k = i then some v else dictGet i rest

/-- Embedding of `Action.display_registry` (lines 53-57): it rebuilds the registry as
`dict(sorted(cls._registry.items()))`: the same pairs reordered by
ascending index (keys are unique, so sorting the items sorts by key), then
prints each action without touching it. -/
def display_registry {α : Type} (registry : List (Nat × α)) : List (Nat × α) :=
  registry.insertionSort (fun p q => p.1 ≤ q.1)

/-! ### Recency tracking (`SimpleAdaptiveSwitcher`, lines 110-130)

`self._recent` is a `deque(maxlen=num_recent)`; `_update_recent` polls the
active app and appends it unless it is in the fixed path set or already in
the window. A full `deque` drops its oldest (leftmost) element on append;
a `deque(maxlen=0)` stays empty. -/

/-- Python `deque(maxlen=cap).append(x)` on current contents `q` (oldest first). -/
def dequeAppend (cap : Nat) (q : List String) (x : String) : List String :=
  if cap = 0 then []
  else if q.length < cap then q ++ [x]
  else q.tail ++ [x]

/-- One iteration of the `_update_recent` loop body (lines 123-130) upon
observing active app path `active`. -/
def updateRecentStep (fixedSet : List String) (cap : Nat) (q : List String)
    (active : String) : List String :=
  if active ∈ fixedSet then q
  else if active ∈ q then q
  else dequeAppend cap q active

/-- The tracker loop run over a sequence of observed active-app paths,
starting from the empty window of `__post_init__` (line 113). -/
def updateRecentRun (fixedSet : List String) (cap : Nat) (obs : List String) : List String :=
  obs.foldl (updateRecentStep fixedSet cap) []

/-! ### `Modifier` (lines 133-166)

World state for the `Modifier` embedding: the `atexit` registration list
(`atexit` runs registered callbacks in last-in-first-out order on normal
termination), the temp filesystem, and the log of `osascript` executions
(`(key, direction)` pairs) in order. -/

/-- Mutable world threaded through the `Modifier` operations. -/
structure ModWorld where
  /-- Keys whose release (`partial(self._execute, "up")`) is registered with
  `atexit`, in registration order. -/
  hooks : List String
  /-- The `/tmp` filesystem: path to content. -/
  fs : String → Option String
  /-- Log of `osascript` script executions, as `(key, direction)`. -/
  executed : List (String × String)

/-- Overwrite one file. -/
def writeFile (fs : String → Option String) (p c : String) : String → Option String :=
  fun q => if q = p then some c else fs q

/-- The applescript source produced by lines 146-155: the dedented template
with `{up_or_down}` and `{key}` substituted. -/
def scriptText (key up_or_down : String) : String :=
  "\ntell application \"System Events\"\n    key " ++ up_or_down ++ " " ++ key ++
    "\nend tell\n"

/-- Embedding of `Modifier._script_path` (lines 159-160). -/
def script_path (key up_or_down : String) : String :=
  "/tmp/.osa_" ++ key ++ "_" ++ up_or_down ++ ".scpt"

/-- Embedding of `Modifier._compile_script` (lines 144-157) acting on the filesystem:
for `up` then `down`, write the script source to the per-key path, then run
`osacompile -o path path`, which overwrites the file with its compiled form
(`osac` is the external compiler, a function of the source text). -/
def compile_script (osac : String → String) (key : String)
    (fs : String → Option String) : String → Option String :=
  writeFile
    (writeFile
      (writeFile
        (writeFile fs (script_path key ("up")) (scriptText key ("up")))
        (script_path key ("up")) (osac (scriptText key ("up"))))
      (script_path key ("down")) (scriptText key ("down")))
    (script_path key ("down")) (osac (scriptText key ("down")))

/-- Embedding of `Modifier.__post_init__` (lines 139-142): register with the class
registry (not modelled here), register `partial(self._execute, "up")` with
`atexit`, then compile the scripts. -/
def modifier_post_init (osac : String → String) (key : String) (w : ModWorld) : ModWorld :=
  { hooks := w.hooks ++ [key]
    fs := compile_script osac key w.fs
    executed := w.executed }

/-- Embedding of `Modifier.__call__` (lines 162-166): execute the down script on press,
the up script on release. -/
def modifier_call (key : String) (is_depressed : Bool) (w : ModWorld) : ModWorld :=
  { w with executed := w.executed ++ [(key, if is_depressed then "down" else "up")] }

/-- Construct one `Modifier` per key of `ks`, in order. -/
def constructModifiers (osac : String → String) (ks : List String) (w : ModWorld) : ModWorld :=
  ks.foldl (fun w k => modifier_post_init osac k w) w

/-- Deliver a sequence of `(key, is_depressed)` edge events to modifiers. -/
def modifierRunCalls (events : List (String × Bool)) (w : ModWorld) : ModWorld :=
  events.foldl (fun w e => modifier_call e.1 e.2 w) w

/-- Normal process termination: `atexit` invokes every registered hook
exactly once, most recently registered first; each hook is
`partial(self._execute, "up")`. -/
def process_exit (w : ModWorld) : ModWorld :=
  { w with executed := w.executed ++ w.hooks.reverse.map (fun k => (k, "up")) }

/-! ## Theorems

### `app_path` normalization -/

theorem stripBackslashes_not_mem (l : List Char) : '\\' ∉ stripBackslashes l := by
  intro h
  have := List.of_mem_filter h
  simp at this

theorem stripBackslashes_cons_bs (rest : List Char) :
    stripBackslashes ('\\' :: rest) = stripBackslashes rest := by
  simp [stripBackslashes]

theorem stripBackslashes_cons (c : Char) (rest : List Char) (h : c ≠ '\\') :
    stripBackslashes (c :: rest) = c :: stripBackslashes rest := by
  simp [stripBackslashes, List.filter_cons, h]

theorem stripBackslashes_escapeSpaces (l : List Char) (h : '\\' ∉ l) :
    stripBackslashes (escapeSpaces l) = l := by
  induction l with
  | nil => rfl
  | cons c cs ih =>
    have hc : c ≠ '\\' := fun hc => h (hc ▸ List.mem_cons_self c cs)
    have hcs : '\\' ∉ cs := fun hm => h (List.mem_cons_of_mem c hm)
    by_cases hsp : c = ' '
    · subst hsp
      show stripBackslashes ('\\' :: ' ' :: escapeSpaces cs) = ' ' :: cs
      rw [stripBackslashes_cons_bs, stripBackslashes_cons _ _ (by decide), ih hcs]
    · show stripBackslashes (if c = ' ' then _ else c :: escapeSpaces cs) = c :: cs
      rw [if_neg hsp, stripBackslashes_cons _ _ hc, ih hcs]

theorem escapePath_idem (l : List Char) : escapePath (escapePath l) = escapePath l := by
  unfold escapePath
  rw [stripBackslashes_escapeSpaces _ (stripBackslashes_not_mem l)]

theorem escapeSpaces_head_slash (l : List Char) (h : l.head? = some '/') :
    (escapeSpaces l).head? = some '/' := by
  cases l with
  | nil => simp at h
  | cons c cs =>
    simp at h
    subst h
    simp [escapeSpaces]

theorem stripBackslashes_head_slash (l : List Char) (h : l.head? = some '/') :
    (stripBackslashes l).head? = some '/' := by
  cases l with
  | nil => simp at h
  | cons c cs =>
    simp at h
    subst h
    simp [stripBackslashes, List.filter]

theorem escapePath_head_slash (l : List Char) (h : l.head? = some '/') :
    (escapePath l).head? = some '/' :=
  escapeSpaces_head_slash _ (stripBackslashes_head_slash _ h)

/-- Every output of `app_path` starts with `/`, provided `expanduser`
returns absolute paths. -/
theorem app_path_head_slash (expand : List Char → List Char)
    (hexp : ∀ q, (expand q).head? = some '/') (p : List Char) :
    (app_path expand p).head? = some '/' := by
  unfold app_path
  split
  · exact escapePath_head_slash _ (by assumption)
  · split
    · exact escapePath_head_slash _ (hexp _)
    · exact escapePath_head_slash _ (by simp [String.data])

/-- Applying `app_path` to an input that already starts with `/` only re-escapes. -/
theorem app_path_abs (expand : List Char → List Char) (p : List Char)
    (h : p.head? = some '/') : app_path expand p = escapePath p := by
  unfold app_path
  rw [if_pos h]

/-- C9: `app_path` is idempotent — provided the external `expanduser`
returns absolute paths, `app_path (app_path s) = app_path s` for every
input — and the output of `get_active_app_path` (which applies the same
normalization to the OS-reported path) is likewise a fixed point of
`app_path`, so the equality tests of the skip rule and the recency tracker
compare consistently normalized strings. -/
theorem app_path_idempotent (expand : List Char → List Char)
    (hexp : ∀ q, (expand q).head? = some '/') (s reported : List Char) :
    app_path expand (app_path expand s) = app_path expand s ∧
    app_path expand (get_active_app_path expand reported)
      = get_active_app_path expand reported := by
  have key : ∀ p : List Char,
      app_path expand (app_path expand p) = app_path expand p := by
    intro p
    rw [app_path_abs expand _ (app_path_head_slash expand hexp p)]
    show escapePath (app_path expand p) = app_path expand p
    unfold app_path
    exact escapePath_idem _
  exact ⟨key s, key reported⟩

/-- Witness for `app_path_idempotent` at a concrete `expanduser` oracle and
concrete inputs. -/
theorem app_path_idempotent_witness :
    app_path (fun q => '/' :: q) (app_path (fun q => '/' :: q) "Brave Browser.app".data)
        = app_path (fun q => '/' :: q) "Brave Browser.app".data ∧
    app_path (fun q => '/' :: q)
        (get_active_app_path (fun q => '/' :: q) "/Applications/Visual Studio Code.app".data)
      = get_active_app_path (fun q => '/' :: q) "/Applications/Visual Studio Code.app".data :=
  app_path_idempotent (fun q => '/' :: q) (fun _ => rfl)
    ("Brave Browser.app".data) ("/Applications/Visual Studio Code.app".data)

/-! ### `Switcher`: cycle order, the skip rule, the empty list -/

theorem getD_mem_of_lt {α : Type} (l : List α) (d : α) (n : Nat) (h : n < l.length) :
    l.getD n d ∈ l := by
  induction l generalizing n with
  | nil => simp at h
  | cons a t ih =>
    cases n with
    | zero => exact List.mem_cons_self a t
    | succ m =>
      have : t.getD m d ∈ t := ih m (by simpa using h)
      exact List.mem_cons_of_mem a this

theorem switcherStep_eq (paths : List String) (pos : Nat) (h : paths ≠ []) :
    switcherStep paths pos = some (paths.getD (pos % paths.length) "", pos + 1) := by
  cases paths with
  | nil => exact absurd rfl h
  | cons a t => rfl

/-- When the focused app at each press is not in the configured list, the
skip never fires: `n` presses launch the next `n` elements of the cycle and
advance the cursor by exactly `n`. -/
theorem switcherRun_no_skip (paths : List String) (focus : Nat → String)
    (hne : paths ≠ []) (hfoc : ∀ k, focus k ∉ paths) :
    ∀ n k pos, switcherRun paths focus k n pos
      = some ((List.range n).map (fun i => paths.getD ((pos + i) % paths.length) ""),
              pos + n) := by
  intro n
  induction n with
  | zero => intro k pos; simp [switcherRun]
  | succ m ih =>
    intro k pos
    have hlen : 0 < paths.length := List.length_pos.mpr hne
    have hmem : paths.getD (pos % paths.length) "" ∈ paths :=
      getD_mem_of_lt _ _ _ (Nat.mod_lt _ hlen)
    have hneq : ¬ paths.getD (pos % paths.length) "" = focus k :=
      fun he => hfoc k (he ▸ hmem)
    have hnext : switcherNext paths (focus k) pos
        = some (paths.getD (pos % paths.length) "", pos + 1) := by
      unfold switcherNext nextPress
      rw [switcherStep_eq paths pos hne]
      show (if paths.getD (pos % paths.length) "" = focus k
            then switcherStep paths (pos + 1)
            else some (paths.getD (pos % paths.length) "", pos + 1))
          = some (paths.getD (pos % paths.length) "", pos + 1)
      exact if_neg hneq
    show switcherRun paths focus k (m + 1) pos = _
    rw [switcherRun, hnext]
    show (match switcherRun paths focus (k + 1) m (pos + 1) with
          | none => none
          | some (out, posEnd) =>
              some (paths.getD (pos % paths.length) "" :: out, posEnd)) = _
    rw [ih (k + 1) (pos + 1)]
    have hrange : (List.range (m + 1)).map
          (fun i => paths.getD ((pos + i) % paths.length) "")
        = paths.getD (pos % paths.length) ""
            :: (List.range m).map (fun i => paths.getD ((pos + 1 + i) % paths.length) "") := by
      rw [List.range_succ_eq_map, List.map_cons, List.map_map]
      refine congrArg₂ _ (by simp) ?_
      refine List.map_congr_left ?_
      intro i _
      have : pos + (i + 1) = pos + 1 + i := by omega
      simp [Function.comp, Nat.succ_eq_add_one, this]
    rw [hrange]
    have : pos + 1 + m = pos + (m + 1) := by omega
    rw [this]

/-- C1 is false as stated: take the configured list `["a", "b", "c"]`
(no adjacent duplicates) and let app `"a"` be focused at the first press.
The skip in `Switcher.__next__` (which applies to plain `Switcher`, not only
to the adaptive variant) makes the first press launch `"b"`, not the first
element `"a"`: the launch sequence does depend on which application is
currently focused. -/
theorem switcher_cycle_order_cex :
    switcherRun ["a", "b", "c"] (fun _ => "a") 0 1 0 = some (["b"], 2) ∧
    (["b"] : List String) ≠ ["a"] := by
  exact ⟨by decide, by decide⟩

/-- C1 (amended): for every `Switcher` whose configured app list is
nonempty, and every sequence of presses during which the focused app read at
each press is not an element of the configured list, the launch call issued
on the k-th press is the k-th element (1-indexed, cyclically) of the
configured list, and the cursor advances exactly one position per press
(after `n` presses it has advanced by exactly `n`). -/
theorem switcher_cycle_order (paths : List String) (focus : Nat → String)
    (hne : paths ≠ []) (hfoc : ∀ k, focus k ∉ paths) (n : Nat) :
    switcherRun paths focus 0 n 0
      = some ((List.range n).map (fun i => paths.getD (i % paths.length) ""), n) := by
  have h := switcherRun_no_skip paths focus hne hfoc n 0 0
  simpa using h

/-- Witness for `switcher_cycle_order`: a 2-element list and 5 presses with
an unrelated app focused throughout yield launches `a, b, a, b, a`. -/
theorem switcher_cycle_order_witness :
    switcherRun ["a", "b"] (fun _ => "z") 0 5 0 = some (["a", "b", "a", "b", "a"], 5) := by
  have h := switcher_cycle_order ["a", "b"] (fun _ => "z") (by decide)
    (by intro k; show ("z" : String) ∉ ["a", "b"]; decide) 5
  exact h.trans (by decide)

/-- C2: the skip rule of `Switcher.__next__` as inherited by
`SimpleAdaptiveSwitcher`. If the element produced by the cycle equals the
currently focused app path (read once at call time), the press returns the
result of advancing the cycle exactly one more position — unconditionally,
so even when that second element again equals the focused app it is
launched anyway: the extra advance happens exactly once per press. -/
theorem adaptive_skip_once (fixed recent : List String) (focused v : String)
    (s s' : Bool × List String) (h : adaptStep fixed recent s = some (v, s'))
    (heq : v = focused) :
    adaptPress fixed recent focused s = adaptStep fixed recent s' := by
  unfold adaptPress nextPress
  rw [h]
  show (if v = focused then adaptStep fixed recent s' else some (v, s'))
      = adaptStep fixed recent s'
  exact if_pos heq

/-- Witness for `adaptive_skip_once`: fixed list `["a", "b"]`, empty recency
window, `"a"` focused; the press skips `"a"` and launches `"b"`. -/
theorem adaptive_skip_once_witness :
    adaptPress ["a", "b"] [] "a" (true, []) = some ("b", (false, [])) := by
  have h := adaptive_skip_once ["a", "b"] [] "a" "a" (true, []) (false, ["b"])
    (by decide) rfl
  exact h.trans (by decide)

/-- C4 (amended): constructing a `Switcher` with an empty app list
succeeds — `__post_init__` performs no validation — but a subsequent press
raises `StopIteration` out of the exhausted `itertools.cycle` (`none` here)
before any external launch call is issued; the misconfiguration does not
surface as a failed launch call, it surfaces as an exception escaping the
action. Releases remain no-ops. -/
theorem switcher_empty_app_list (focused : String) (pos : Nat) :
    switcherInit [] = ([], 0) ∧
    switcherCall [] focused true pos = none ∧
    switcherCall [] focused false pos = some ([], pos) :=
  ⟨rfl, rfl, rfl⟩

/-- C4 is false as stated: with an empty app list, the press raises
(`switcherCall` returns `none`, the embedded `StopIteration` escaping
`__call__`) instead of performing a failed external launch; no launch call
is issued at all. -/
theorem switcher_empty_press_cex :
    switcherInit [] = ([], 0) ∧ switcherCall [] "focused.app" true 0 = none :=
  ⟨rfl, rfl⟩

/-! ### `SimpleAdaptiveSwitcher`: traversal structure and snapshot timing -/

/-- Consuming the pending elements of the current sub-list yields exactly
those elements and leaves the generator at the sub-list's end, regardless
of how the recency window evolves meanwhile. -/
theorem adaptConsume_pending (fixed : List String) (sched : Nat → List String)
    (pending : List String) (ph : Bool) :
    ∀ k, adaptConsume fixed sched k pending.length (ph, pending)
      = some (pending, (ph, [])) := by
  induction pending with
  | nil => intro k; rfl
  | cons x rest ih =>
    intro k
    show adaptConsume fixed sched k (rest.length + 1) (ph, x :: rest) = _
    rw [adaptConsume]
    have hstep : adaptStep fixed (sched k) (ph, x :: rest) = some (x, (ph, rest)) := by
      cases ph <;> rfl
    rw [hstep]
    show (match adaptConsume fixed sched (k + 1) rest.length (ph, rest) with
          | none => none
          | some (out, sEnd) => some (x :: out, sEnd)) = _
    rw [ih (k + 1)]

/-- Splitting a consumption of `m + n` elements at `m`. -/
theorem adaptConsume_add (fixed : List String) (sched : Nat → List String) (n : Nat) :
    ∀ m k s out1 s1, adaptConsume fixed sched k m s = some (out1, s1) →
      adaptConsume fixed sched k (m + n) s
        = (adaptConsume fixed sched (k + m) n s1).map (fun r => (out1 ++ r.1, r.2)) := by
  intro m
  induction m with
  | zero =>
    intro k s out1 s1 h1
    have h1' : some (([] : List String), s) = some (out1, s1) := h1
    cases h1'
    simp only [Nat.zero_add, Nat.add_zero]
    cases hres : adaptConsume fixed sched k n s with
    | none => simp
    | some r => simp
  | succ m ih =>
    intro k s out1 s1 h1
    rw [adaptConsume] at h1
    cases hstep : adaptStep fixed (sched k) s with
    | none => rw [hstep] at h1; exact absurd h1 (by simp)
    | some vs' =>
      obtain ⟨v, s'⟩ := vs'
      rw [hstep] at h1
      have h1' : (match adaptConsume fixed sched (k + 1) m s' with
            | none => none
            | some (out, sEnd) => some (v :: out, sEnd)) = some (out1, s1) := h1
      cases hrec : adaptConsume fixed sched (k + 1) m s' with
      | none =>
        rw [hrec] at h1'
        exact absurd h1' (by simp)
      | some outs =>
        obtain ⟨out, sEnd⟩ := outs
        rw [hrec] at h1'
        have h1'' : some (v :: out, sEnd) = some (out1, s1) := h1'
        cases h1''
        have harith : m + 1 + n = (m + n) + 1 := by omega
        rw [harith, adaptConsume, hstep]
        have hih := ih (k + 1) s' out s1 hrec
        show (match adaptConsume fixed sched (k + 1) (m + n) s' with
              | none => none
              | some (out2, sEnd2) => some (v :: out2, sEnd2)) = _
        rw [hih]
        have harith2 : k + 1 + m = k + (m + 1) := by omega
        rw [harith2]
        cases adaptConsume fixed sched (k + (m + 1)) n s1 with
        | none => simp
        | some r => simp

/-- From a traversal boundary, consuming `fixed.length` elements yields the
fixed configured list in order and stops right where the recency snapshot
will be taken. -/
theorem adaptConsume_fixed (fixed : List String) (hne : fixed ≠ [])
    (sched : Nat → List String) (k : Nat) :
    adaptConsume fixed sched k fixed.length (true, []) = some (fixed, (false, [])) := by
  cases fixed with
  | nil => exact absurd rfl hne
  | cons f0 frest =>
    show adaptConsume (f0 :: frest) sched k (frest.length + 1) (true, []) = _
    rw [adaptConsume]
    have hstep : adaptStep (f0 :: frest) (sched k) (true, []) = some (f0, (false, frest)) := rfl
    rw [hstep]
    show (match adaptConsume (f0 :: frest) sched (k + 1) frest.length (false, frest) with
          | none => none
          | some (out, sEnd) => some (f0 :: out, sEnd)) = _
    rw [adaptConsume_pending (f0 :: frest) sched frest false (k + 1)]

/-- At the point where the fixed portion is exhausted, the generator reads
the *current* recency window (press index `k`) as its snapshot and yields
it in insertion order, ending at a traversal boundary. -/
theorem adaptConsume_recent (fixed : List String) (sched : Nat → List String) (k : Nat)
    (s0 : String) (srest : List String) (hs : sched k = s0 :: srest) :
    adaptConsume fixed sched k (s0 :: srest).length (false, [])
      = some (s0 :: srest, (true, [])) := by
  show adaptConsume fixed sched k (srest.length + 1) (false, []) = _
  rw [adaptConsume]
  have hstep : adaptStep fixed (sched k) (false, []) = some (s0, (true, srest)) := by
    rw [hs]
    simp [adaptStep]
  rw [hstep]
  show (match adaptConsume fixed sched (k + 1) srest.length (true, srest) with
        | none => none
        | some (out, sEnd) => some (s0 :: out, sEnd)) = _
  rw [adaptConsume_pending fixed sched srest true (k + 1)]

/-- C3 is false as stated: the recency snapshot is *not* re-read at the
start of each traversal; it is read only when the recent portion begins.
With fixed list `["x"]` and a recency window that holds `["z"]` at press 0
(the traversal start) but `["w"]` from press 1 on (the `maxlen=1` deque
evicted `"z"` for `"w"` between the presses), the code's cycle yields
`x, w`, while a cycle that snapshots at the traversal start (`claimConsume`,
modelled from the claim's words) yields `x, z`. -/
theorem adaptive_snapshot_timing_cex :
    adaptConsume ["x"] (fun k => if k = 0 then ["z"] else ["w"]) 0 2 (true, [])
        = some (["x", "w"], (true, [])) ∧
    claimConsume ["x"] (fun k => if k = 0 then ["z"] else ["w"]) 0 2 []
        = some (["x", "z"], []) ∧
    (["x", "w"] : List String) ≠ ["x", "z"] :=
  ⟨by decide, by decide, by decide⟩

/-- C3 (amended): each full traversal of the adaptive cycle yields the
fixed configured list in order followed by a snapshot of the recency history
in insertion order, the snapshot being re-read when the recent portion of
the traversal begins (at the press that exhausts the fixed portion), after
which the cycle is back at a traversal boundary; in particular, with fixed
list `[x, y]`, a recency window holding `z`, and focus following the
launches from an unrelated app, successive presses issue launches
`x, y, z, x, y, z`. -/
theorem adaptive_traversal (fixed snap : List String) (sched : Nat → List String)
    (k : Nat) (hf : fixed ≠ []) (hs : sched (k + fixed.length) = snap) (hsn : snap ≠ []) :
    adaptConsume fixed sched k (fixed.length + snap.length) (true, [])
        = some (fixed ++ snap, (true, [])) ∧
    adaptLaunchRun ["x", "y"] ["z"] "w" 6 (true, [])
        = some ["x", "y", "z", "x", "y", "z"] := by
  constructor
  · have h1 := adaptConsume_fixed fixed hf sched k
    rw [adaptConsume_add fixed sched snap.length fixed.length k (true, []) fixed
      (false, []) h1]
    cases snap with
    | nil => exact absurd rfl hsn
    | cons s0 srest =>
      rw [adaptConsume_recent fixed sched (k + fixed.length) s0 srest hs]
      simp
  · decide

/-- Witness for `adaptive_traversal`: fixed list `["x", "y"]`, constant
recency window `["z"]`; one full traversal from the boundary yields
`x, y, z` and returns to the boundary. -/
theorem adaptive_traversal_witness :
    adaptConsume ["x", "y"] (fun _ => ["z"]) 0 3 (true, [])
        = some (["x", "y", "z"], (true, [])) ∧
    adaptLaunchRun ["x", "y"] ["z"] "w" 6 (true, [])
        = some ["x", "y", "z", "x", "y", "z"] := by
  have h := adaptive_traversal ["x", "y"] ["z"] (fun _ => ["z"]) 0
    (by decide) rfl (by decide)
  exact ⟨h.1, h.2⟩

/-! ### Registry dispatch: unregistered pedals are silent no-ops -/

/-- C5: for every sequence of edge events (press or release) delivered
for pedal indices with no registered action, `streamdeck_callback` performs
no side effect on the world (which contains all action state), and does not
raise: the run returns the initial world unchanged. The registry itself is
never written by the callback. -/
theorem dispatch_unregistered_noop {σ : Type}
    (registry : Nat → Option (Bool → σ → Option σ)) (events : List (Nat × Bool))
    (h : ∀ e ∈ events, registry e.1 = none) (w : σ) :
    dispatchRun registry events w = some w := by
  induction events with
  | nil => rfl
  | cons e rest ih =>
    have he : registry e.1 = none := h e (List.mem_cons_self e rest)
    have hrest : ∀ e' ∈ rest, registry e'.1 = none :=
      fun e' he' => h e' (List.mem_cons_of_mem e he')
    show dispatchRun registry (e :: rest) w = some w
    rw [dispatchRun]
    unfold streamdeck_callback
    rw [he]
    exact ih hrest

/-- Witness for `dispatch_unregistered_noop`: an empty registry over a
numeric world, three edge events, world `7` untouched. -/
theorem dispatch_unregistered_noop_witness :
    dispatchRun (σ := Nat) (fun _ => none) [(0, true), (0, false), (3, true)] 7 = some 7 :=
  dispatch_unregistered_noop (fun _ => none) [(0, true), (0, false), (3, true)]
    (fun _ _ => rfl) 7

/-! ### Recency window invariants -/

theorem dequeAppend_length (cap : Nat) (q : List String) (x : String)
    (hq : q.length ≤ cap) : (dequeAppend cap q x).length ≤ cap := by
  unfold dequeAppend
  split
  · simp
  · split
    · simpa using (by omega : q.length + 1 ≤ cap)
    · have : q.length = cap := by omega
      rcases q with _ | ⟨a, t⟩
      · simp at this; omega
      · simp at this ⊢; omega

theorem dequeAppend_nodup (cap : Nat) (q : List String) (x : String)
    (hq : q.Nodup) (hx : x ∉ q) : (dequeAppend cap q x).Nodup := by
  unfold dequeAppend
  split
  · simp
  · split
    · exact List.Nodup.append hq (List.nodup_singleton x)
        (fun a ha hax => hx ((List.mem_singleton.mp hax) ▸ ha))
    · have hq' : q.tail.Nodup := hq.tail
      have hx' : x ∉ q.tail := fun hm => hx (List.mem_of_mem_tail hm)
      exact List.Nodup.append hq' (List.nodup_singleton x)
        (fun a ha hax => hx' ((List.mem_singleton.mp hax) ▸ ha))

theorem dequeAppend_subset (cap : Nat) (q : List String) (x : String) :
    ∀ a ∈ dequeAppend cap q x, a ∈ q ∨ a = x := by
  intro a ha
  unfold dequeAppend at ha
  split at ha
  · simp at ha
  · split at ha
    · rcases List.mem_append.mp ha with h | h
      · exact Or.inl h
      · simp at h; exact Or.inr h
    · rcases List.mem_append.mp ha with h | h
      · exact Or.inl (List.mem_of_mem_tail h)
      · simp at h; exact Or.inr h

/-- The three state invariants of the recency window, preserved by every
fold of the tracker loop from the empty initial deque. -/
theorem updateRecentRun_invariant (fixedSet : List String) (cap : Nat)
    (obs : List String) :
    (updateRecentRun fixedSet cap obs).Nodup ∧
    (∀ a ∈ updateRecentRun fixedSet cap obs, a ∉ fixedSet) ∧
    (updateRecentRun fixedSet cap obs).length ≤ cap := by
  have key : ∀ (l : List String) (q : List String),
      q.Nodup → (∀ a ∈ q, a ∉ fixedSet) → q.length ≤ cap →
      (l.foldl (updateRecentStep fixedSet cap) q).Nodup ∧
      (∀ a ∈ l.foldl (updateRecentStep fixedSet cap) q, a ∉ fixedSet) ∧
      (l.foldl (updateRecentStep fixedSet cap) q).length ≤ cap := by
    intro l
    induction l with
    | nil => intro q h1 h2 h3; exact ⟨h1, h2, h3⟩
    | cons active rest ih =>
      intro q h1 h2 h3
      show ((rest.foldl (updateRecentStep fixedSet cap)
          (updateRecentStep fixedSet cap q active)).Nodup ∧ _ ∧ _)
      apply ih
      · unfold updateRecentStep
        split
        · exact h1
        · split
          · exact h1
          · exact dequeAppend_nodup cap q active h1 (by assumption)
      · unfold updateRecentStep
        split
        · exact h2
        · split
          · exact h2
          · intro a ha
            rcases dequeAppend_subset cap q active a ha with h | h
            · exact h2 a h
            · subst h; assumption
      · unfold updateRecentStep
        split
        · exact h3
        · split
          · exact h3
          · exact dequeAppend_length cap q active h3
  exact key obs [] (by simp) (by simp) (by simp)

/-- C6: after every run of the tracker loop the recency window has no
duplicate path, contains no path of the fixed configured set, and never
exceeds `num_recent` entries; moreover, when an insert happens with the
window at capacity, the evicted entry is exactly the oldest (leftmost) one:
the step returns `q.tail ++ [active]`. -/
theorem recency_window_invariant (fixedSet : List String) (cap : Nat)
    (obs : List String) :
    ((updateRecentRun fixedSet cap obs).Nodup ∧
     (∀ a ∈ updateRecentRun fixedSet cap obs, a ∉ fixedSet) ∧
     (updateRecentRun fixedSet cap obs).length ≤ cap) ∧
    (∀ (q : List String) (active : String), active ∉ fixedSet → active ∉ q →
      q.length = cap → 0 < cap →
      updateRecentStep fixedSet cap q active = q.tail ++ [active]) := by
  refine ⟨updateRecentRun_invariant fixedSet cap obs, ?_⟩
  intro q active hfix hq hlen hcap
  unfold updateRecentStep
  rw [if_neg hfix, if_neg hq]
  unfold dequeAppend
  rw [if_neg (by omega), if_neg (by omega)]

/-- Witness for `recency_window_invariant`: fixed set `["f"]`, capacity 1,
observations `a, b, f, a`; the run keeps the invariants and an insert at
capacity evicts the oldest entry. -/
theorem recency_window_invariant_witness :
    ((updateRecentRun ["f"] 1 ["a", "b", "f", "a"]).Nodup ∧
     (∀ a ∈ updateRecentRun ["f"] 1 ["a", "b", "f", "a"], a ∉ (["f"] : List String)) ∧
     (updateRecentRun ["f"] 1 ["a", "b", "f", "a"]).length ≤ 1) ∧
    updateRecentStep ["f"] 1 ["a"] "b" = ["b"] := by
  have h := recency_window_invariant ["f"] 1 ["a", "b", "f", "a"]
  refine ⟨h.1, ?_⟩
  have h2 := h.2 ["a"] "b" (by decide) (by decide) (by decide) (by decide)
  exact h2.trans (by decide)

/-! ### `Modifier` exit hooks -/

theorem constructModifiers_hooks (osac : String → String) (ks : List String) :
    ∀ w : ModWorld, (constructModifiers osac ks w).hooks = w.hooks ++ ks := by
  induction ks with
  | nil => intro w; simp [constructModifiers]
  | cons k rest ih =>
    intro w
    show (constructModifiers osac rest (modifier_post_init osac k w)).hooks = _
    rw [ih (modifier_post_init osac k w)]
    simp [modifier_post_init]

theorem modifierRunCalls_hooks (events : List (String × Bool)) :
    ∀ w : ModWorld, (modifierRunCalls events w).hooks = w.hooks := by
  induction events with
  | nil => intro w; rfl
  | cons e rest ih =>
    intro w
    show (modifierRunCalls rest (modifier_call e.1 e.2 w)).hooks = _
    rw [ih (modifier_call e.1 e.2 w)]
    rfl

/-- C7: every `Modifier` construction registers exactly one exit-time
release hook (`partial(self._execute, "up")` via `atexit`), press/release
activity never changes the hook list, and normal process termination runs
the hooks exactly once each: the exit appends to the execution log exactly
one `(key, "up")` release per constructed instance, in LIFO registration
order, regardless of the press/release state each instance was last in. -/
theorem modifier_exit_release_once (osac : String → String) (ks : List String)
    (w0 : ModWorld) (h0 : w0.hooks = []) (activity : List (String × Bool)) :
    (constructModifiers osac ks w0).hooks = ks ∧
    (modifierRunCalls activity (constructModifiers osac ks w0)).hooks = ks ∧
    (process_exit (modifierRunCalls activity (constructModifiers osac ks w0))).executed
      = (modifierRunCalls activity (constructModifiers osac ks w0)).executed
          ++ ks.reverse.map (fun k => (k, "up")) := by
  have hc : (constructModifiers osac ks w0).hooks = ks := by
    rw [constructModifiers_hooks osac ks w0, h0]
    simp
  have hr : (modifierRunCalls activity (constructModifiers osac ks w0)).hooks = ks := by
    rw [modifierRunCalls_hooks activity, hc]
  refine ⟨hc, hr, ?_⟩
  unfold process_exit
  rw [hr]

/-- Witness for `modifier_exit_release_once`: the three registered modifier
keys, a press of `option` in between, exit releases all three exactly once
in LIFO order. -/
theorem modifier_exit_release_once_witness :
    (constructModifiers id ["option", "shift", "control"]
        ⟨[], fun _ => none, []⟩).hooks = ["option", "shift", "control"] ∧
    (modifierRunCalls [("option", true)]
        (constructModifiers id ["option", "shift", "control"]
          ⟨[], fun _ => none, []⟩)).hooks = ["option", "shift", "control"] ∧
    (process_exit (modifierRunCalls [("option", true)]
        (constructModifiers id ["option", "shift", "control"]
          ⟨[], fun _ => none, []⟩))).executed
      = (modifierRunCalls [("option", true)]
          (constructModifiers id ["option", "shift", "control"]
            ⟨[], fun _ => none, []⟩)).executed
          ++ (["option", "shift", "control"] : List String).reverse.map
              (fun k => (k, "up")) :=
  modifier_exit_release_once id ["option", "shift", "control"]
    ⟨[], fun _ => none, []⟩ rfl [("option", true)]

/-! ### `Modifier` script compilation -/

theorem writeFile_at (fs : String → Option String) (p c : String) :
    writeFile fs p c p = some c := by
  simp [writeFile]

theorem writeFile_other (fs : String → Option String) (p c q : String) (h : q ≠ p) :
    writeFile fs p c q = fs q := by
  simp [writeFile, h]

/-- The per-key script paths for the two directions are distinct (their
lengths already differ). -/
theorem script_path_up_ne_down (key : String) :
    script_path key ("up") ≠ script_path key ("down") := by
  intro h
  have hlen := congrArg String.length h
  simp [script_path, String.length_append] at hlen
  exact absurd hlen (by decide)

/-- After compilation, each script file holds the compiled form of the
deterministic source text for its key and direction, whatever the prior
filesystem held. -/
theorem compile_script_content (osac : String → String) (key : String)
    (fs : String → Option String) :
    compile_script osac key fs (script_path key ("up")) = some (osac (scriptText key ("up"))) ∧
    compile_script osac key fs (script_path key ("down"))
      = some (osac (scriptText key ("down"))) := by
  have hne : script_path key ("up") ≠ script_path key ("down") := script_path_up_ne_down key
  constructor
  · unfold compile_script
    rw [writeFile_other _ _ _ _ hne, writeFile_other _ _ _ _ hne, writeFile_at]
  · unfold compile_script
    rw [writeFile_at]

theorem compile_script_frame (osac : String → String) (key : String)
    (fs : String → Option String) (q : String) (hu : q ≠ script_path key ("up"))
    (hd : q ≠ script_path key ("down")) :
    compile_script osac key fs q = fs q := by
  unfold compile_script
  rw [writeFile_other _ _ _ _ hd, writeFile_other _ _ _ _ hd,
    writeFile_other _ _ _ _ hu, writeFile_other _ _ _ _ hu]

/-- C8: recompiling a `Modifier`'s scripts for the same key is
idempotent and overwrite-safe: a second compilation maps the filesystem to
exactly the same state, the content at each per-key per-direction path is
identical no matter what filesystem the compilation started from (the
source text written is the same byte-for-byte), and the `up` and `down`
scripts live at distinct deterministic paths. -/
theorem compile_script_idempotent (osac : String → String) (key : String)
    (fs fs' : String → Option String) :
    compile_script osac key (compile_script osac key fs) = compile_script osac key fs ∧
    (∀ d, d = "up" ∨ d = "down" →
      compile_script osac key fs (script_path key d)
        = compile_script osac key fs' (script_path key d)) ∧
    script_path key ("up") ≠ script_path key ("down") := by
  refine ⟨?_, ?_, script_path_up_ne_down key⟩
  · funext q
    by_cases hu : q = script_path key ("up")
    · subst hu
      rw [(compile_script_content osac key (compile_script osac key fs)).1,
        (compile_script_content osac key fs).1]
    · by_cases hd : q = script_path key ("down")
      · subst hd
        rw [(compile_script_content osac key (compile_script osac key fs)).2,
          (compile_script_content osac key fs).2]
      · rw [compile_script_frame osac key _ q hu hd,
          compile_script_frame osac key fs q hu hd]
  · intro d hdir
    rcases hdir with h | h
    · subst h
      rw [(compile_script_content osac key fs).1, (compile_script_content osac key fs').1]
    · subst h
      rw [(compile_script_content osac key fs).2, (compile_script_content osac key fs').2]

/-- Witness for `compile_script_idempotent` at the key `"option"`, an empty
filesystem and a nonempty one. -/
theorem compile_script_idempotent_witness :
    compile_script id ("option") (compile_script id ("option") (fun _ => none))
        = compile_script id ("option") (fun _ => none) ∧
    compile_script id ("option") (fun _ => none) (script_path ("option") ("up"))
        = compile_script id ("option") (fun _ => some ("old")) (script_path ("option") ("up")) ∧
    script_path ("option") ("up") ≠ script_path ("option") ("down") := by
  have h := compile_script_idempotent id ("option") (fun _ => none) (fun _ => some ("old"))
  exact ⟨h.1, h.2.1 ("up") (Or.inl rfl), h.2.2⟩

/-! ### `display_registry` is read-only on the mapping -/

theorem dictGet_mem {α : Type} {i : Nat} {v : α} :
    ∀ {l : List (Nat × α)}, dictGet i l = some v → (i, v) ∈ l := by
  intro l
  induction l with
  | nil => intro h; exact absurd h (by simp [dictGet])
  | cons p rest ih =>
    intro h
    obtain ⟨k, w⟩ := p
    rw [dictGet] at h
    by_cases hk : k = i
    · rw [if_pos hk] at h
      have : w = v := by injection h
      subst this; subst hk
      exact List.mem_cons_self _ _
    · rw [if_neg hk] at h
      exact List.mem_cons_of_mem _ (ih h)

theorem dictGet_none_iff {α : Type} (i : Nat) :
    ∀ (l : List (Nat × α)), dictGet i l = none ↔ i ∉ l.map Prod.fst := by
  intro l
  induction l with
  | nil => simp [dictGet]
  | cons p rest ih =>
    obtain ⟨k, w⟩ := p
    rw [dictGet]
    by_cases hk : k = i
    · subst hk
      simp
    · rw [if_neg hk]
      simp [ih, hk, Ne.symm hk]

theorem dictGet_of_mem {α : Type} (i : Nat) (v : α) :
    ∀ (l : List (Nat × α)), (l.map Prod.fst).Nodup → (i, v) ∈ l →
      dictGet i l = some v := by
  intro l
  induction l with
  | nil => intro _ h; simp at h
  | cons p rest ih =>
    intro hnd hmem
    obtain ⟨k, w⟩ := p
    rw [dictGet]
    rcases List.mem_cons.mp hmem with heq | hrest
    · have hk : k = i ∧ w = v := by
        have h1 := congrArg Prod.fst heq
        have h2 := congrArg Prod.snd heq
        exact ⟨h1.symm, h2.symm⟩
      rw [if_pos hk.1, hk.2]
    · have hk : k ≠ i := by
        intro hk
        subst hk
        have : k ∈ rest.map Prod.fst :=
          List.mem_map.mpr ⟨(k, v), hrest, rfl⟩
        exact (List.nodup_cons.mp (by simpa using hnd)).1 this
      rw [if_neg hk]
      exact ih (List.nodup_cons.mp (by simpa using hnd)).2 hrest

/-- Permuting an association list with duplicate-free keys does not change
any lookup. -/
theorem perm_dictGet {α : Type} (l l' : List (Nat × α)) (hperm : l.Perm l')
    (hnd : (l.map Prod.fst).Nodup) (i : Nat) : dictGet i l' = dictGet i l := by
  cases hres : dictGet i l with
  | none =>
    have hni : i ∉ l.map Prod.fst := (dictGet_none_iff i l).mp hres
    have hni' : i ∉ l'.map Prod.fst := fun hmem =>
      hni ((hperm.map Prod.fst).mem_iff.mpr hmem)
    exact (dictGet_none_iff i l').mpr hni'
  | some v =>
    have hmem : (i, v) ∈ l := dictGet_mem hres
    have hmem' : (i, v) ∈ l' := hperm.mem_iff.mp hmem
    have hnd' : (l'.map Prod.fst).Nodup := (hperm.map Prod.fst).nodup_iff.mp hnd
    exact dictGet_of_mem i v l' hnd' hmem'

/-- C10: `display_registry` replaces the registry with
`dict(sorted(items))` and this leaves the mapping unchanged: every pedal
index maps to the same action instance as before, the entries are exactly
the same pairs (a permutation, so the set of registered indices is
unchanged), and the only effect is that iteration order becomes ascending
in the index. -/
theorem display_registry_preserves {α : Type} (registry : List (Nat × α))
    (hnd : (registry.map Prod.fst).Nodup) :
    (∀ i, dictGet i (display_registry registry) = dictGet i registry) ∧
    (display_registry registry).Perm registry ∧
    (display_registry registry).Pairwise (fun p q => p.1 ≤ q.1) := by
  have hperm : (display_registry registry).Perm registry := by
    unfold display_registry
    exact List.perm_insertionSort _ registry
  refine ⟨?_, hperm, ?_⟩
  · intro i
    exact perm_dictGet registry (display_registry registry) hperm.symm hnd i
  · haveI : IsTotal (Nat × α) (fun p q => p.1 ≤ q.1) := ⟨fun a b => Nat.le_total a.1 b.1⟩
    haveI : IsTrans (Nat × α) (fun p q => p.1 ≤ q.1) :=
      ⟨fun _ _ _ hab hbc => Nat.le_trans hab hbc⟩
    unfold display_registry
    exact List.sorted_insertionSort _ registry

/-- Witness for `display_registry_preserves`: the registry built by
`register_actions` order (indices 2 and 0) is re-ordered ascending with
lookups intact. -/
theorem display_registry_preserves_witness :
    (∀ i, dictGet i (display_registry [(2, "switcher"), (0, "quick")])
      = dictGet i [(2, "switcher"), (0, "quick")]) ∧
    (display_registry [(2, "switcher"), (0, "quick")]).Perm
      [(2, "switcher"), (0, "quick")] ∧
    (display_registry [(2, "switcher"), (0, "quick")]).Pairwise
      (fun p q => p.1 ≤ q.1) :=
  display_registry_preserves [(2, "switcher"), (0, "quick")] (by decide)

end StreamdeckModifier
